import Mathlib

/-!
Verification development for the Codenames spymaster assistant
(`src/main.py`, class `CodenamesHelper`).

The clue pipeline of the program is embedded shallowly:

* Python strings are lists of characters (`Str`); `str s` injects a Lean
  string literal.  Python `str.lower` is mapped over the characters
  (ASCII, as in the inputs the program handles).
* Python dicts are association lists with Python's update semantics:
  inserting an existing key updates it in place, a new key is appended
  (`dinsert` / `dlookup`).
* Python floats are modelled as rationals.
* The two external services (the Datamuse word-relation service and the
  Wikipedia link graph) are inputs of the pipeline, collected in an
  `Env`: `dm relation word` is the service response (`none` models a
  raised exception), `wiki word` is the list of outbound link titles of
  the word's page (`[]` when the page does not exist); link titles come
  from dict keys, hence the `Nodup` field.  The `lru_cache` memoisation
  is invisible in this model because `dm` is a function of its
  arguments.
-/

namespace Codenames

/-- Python strings, as their sequences of characters. -/
abbrev Str := List Char

/-- Inject a Lean string literal into the model. -/
def str (s : String) : Str := s.data

/-- Python `str.lower()` (ASCII case folding, as used by the program). -/
def lower (s : Str) : Str := s.map Char.toLower

/-- Membership in Python's `string.punctuation`
(the 32 ASCII characters in the ranges 33–47, 58–64, 91–96, 123–126).
Note that a space is not punctuation. -/
def isPunct (c : Char) : Bool :=
  (33 ≤ c.toNat && c.toNat ≤ 47) || (58 ≤ c.toNat && c.toNat ≤ 64) ||
  (91 ≤ c.toNat && c.toNat ≤ 96) || (123 ≤ c.toNat && c.toNat ≤ 126)

/-- Does `needle` start `hay`?  (Helper for Python's substring test.) -/
def headMatch : Str → Str → Bool
  | [], _ => true
  | _ :: _, [] => false
  | a :: as, b :: bs => (a == b) && headMatch as bs

/-- Python's substring test `needle in hay` on strings. -/
def isSubChars (needle : Str) : Str → Bool
  | [] => headMatch needle []
  | c :: cs => headMatch needle (c :: cs) || isSubChars needle cs

/-- Split a character list at every occurrence of `sep`,
as Python's `s.split(sep)` for a one-character separator. -/
def splitOnCharAux (sep : Char) : Str → Str → List Str
  | [], acc => [acc.reverse]
  | x :: xs, acc =>
      if x = sep then acc.reverse :: splitOnCharAux sep xs []
      else splitOnCharAux sep xs (x :: acc)

/-- Python `s.split(sep)` for a one-character separator. -/
def splitOnChar (sep : Char) (s : Str) : List Str := splitOnCharAux sep s []

/-- Python `s.split(':')[-1]`. -/
def lastColonSeg (s : Str) : Str := (splitOnChar ':' s).getLastD []

/-- Nonempty all-digit character lists as numbers (helper for `parseFloat`). -/
def parseDigits (cs : Str) : Option ℕ :=
  if cs.isEmpty then none
  else if cs.all Char.isDigit then
    some (cs.foldl (fun n c => 10 * n + (c.toNat - 48)) 0)
  else none

/-- Models Python's `float(s)` on the tag payloads the relation service
emits: an optional minus sign followed by a plain decimal literal
`digits` or `digits.digits`.  Any other string yields `none`, modelling
the `ValueError` that `float` raises. -/
def parseFloat (s : Str) : Option ℚ :=
  let sign : ℚ := if s.headD ' ' = '-' then -1 else 1
  let body : Str := if s.headD ' ' = '-' then s.tail else s
  match splitOnChar '.' body with
  | [ip] => (parseDigits ip).map (fun n => sign * n)
  | [ip, fp] =>
      match parseDigits ip, parseDigits fp with
      | some a, some b => some (sign * ((a : ℚ) + (b : ℚ) / (10 : ℚ) ^ fp.length))
      | _, _ => none
  | _ => none

/-- Python-dict lookup on an association list. -/
def dlookup {α : Type} : List (Str × α) → Str → Option α
  | [], _ => none
  | (k, v) :: rest, key => if k = key then some v else dlookup rest key

/-- Lookup with a default (`defaultdict` access / `dict.get`). -/
def dlookupD {α : Type} (m : List (Str × α)) (key : Str) (d : α) : α :=
  (dlookup m key).getD d

/-- Python-dict insertion: an existing key is updated in place,
a new key is appended. -/
def dinsert {α : Type} : List (Str × α) → Str → α → List (Str × α)
  | [], k, v => [(k, v)]
  | (k0, v0) :: rest, k, v =>
      if k0 = k then (k0, v) :: rest else (k0, v0) :: dinsert rest k v

/-- The keys of an association list, in order. -/
def dkeys {α : Type} : List (Str × α) → List Str
  | [] => []
  | (k, _) :: rest => k :: dkeys rest

/-- One raw item of a Datamuse response: a word, its relevance score,
and the optional `tags` metadata list (`none` when the item has no
`tags` field). -/
structure DMItem where
  word : Str
  score : ℚ
  tags : Option (List Str)
  deriving DecidableEq

/-- The parsed per-term relation data kept by `_query_datamuse`. -/
structure DMData where
  score : ℚ
  freq : ℚ
  pos : Str
  deriving DecidableEq

/-- The external world the pipeline runs against. -/
structure Env where
  dm : String → Str → Option (List DMItem)
  wiki : Str → List Str
  wiki_nodup : ∀ w, (wiki w).Nodup

/-- The comprehension filter of `_query_datamuse`:
`'tags' in item and len(item['tags']) >= 2`. -/
def tagsOk (it : DMItem) : Bool :=
  match it.tags with
  | some ts => decide (2 ≤ ts.length)
  | none => false

/-- One entry of the comprehension in `_query_datamuse`:
`freq` is `float(item.get('tags', ['0'])[0].split(':')[-1])` and
`pos` is `item.get('tags', [''])[-1].split(':')[-1]`; `none` models the
`ValueError` raised when the frequency tag does not parse as a number. -/
def entryOf (it : DMItem) : Option (Str × DMData) :=
  let ts := it.tags.getD []
  match parseFloat (lastColonSeg (ts.headD (str "0"))) with
  | none => none
  | some f => some (it.word, ⟨it.score, f, lastColonSeg (ts.getLastD [])⟩)

/-- Evaluate the comprehension body on every tag-qualifying item;
`none` models the exception escaping the comprehension. -/
def entriesOf (items : List DMItem) : Option (List (Str × DMData)) :=
  go (items.filter tagsOk)
where
  go : List DMItem → Option (List (Str × DMData))
    | [] => some []
    | it :: rest =>
        match entryOf it, go rest with
        | some e, some es => some (e :: es)
        | _, _ => none

/-- Build the comprehension's dict from its entries. -/
def dictOf (es : List (Str × DMData)) : List (Str × DMData) :=
  es.foldl (fun m e => dinsert m e.1 e.2) []

/-- `CodenamesHelper._query_datamuse`: the whole body runs under
`try … except: return {}`, so both a failing service call and a
malformed frequency tag yield the empty mapping. -/
def query_datamuse (env : Env) (relation : String) (word : Str) :
    List (Str × DMData) :=
  match env.dm relation word with
  | none => []
  | some items =>
      match entriesOf items with
      | none => []
      | some es => dictOf es

/-- `CodenamesHelper.get_adjectives`. -/
def get_adjectives (env : Env) (word : Str) : List (Str × DMData) :=
  query_datamuse env "rel_jja" word

/-- `CodenamesHelper.get_nouns`. -/
def get_nouns (env : Env) (word : Str) : List (Str × DMData) :=
  query_datamuse env "rel_jjb" word

/-- `CodenamesHelper.get_triggers`. -/
def get_triggers (env : Env) (word : Str) : List (Str × DMData) :=
  query_datamuse env "rel_trg" word

/-- `CodenamesHelper.get_contextual`. -/
def get_contextual (env : Env) (word : Str) : List (Str × DMData) :=
  query_datamuse env "lc" word

/-- `CodenamesHelper.get_wikipedia_links`. -/
def get_wikipedia_links (env : Env) (word : Str) : List Str :=
  env.wiki word

/-- `CodenamesHelper.common_words`. -/
def common_words : List Str :=
  [str "i", str "a", str "an", str "the", str "and", str "but", str "or",
   str "to", str "of", str "in", str "on", str "at", str "for", str "with",
   str "by", str "from", str "up", str "out", str "if", str "as"]

/-- `CodenamesHelper.min_word_frequency`. -/
def min_word_frequency : ℚ := 2

/-- `CodenamesHelper.min_connection_count`. -/
def min_connection_count : ℕ := 2

/-- `CodenamesHelper._is_valid_term`. -/
def is_valid_term (term : Str) (target_words : List Str) : Bool :=
  let term_lower := lower term
  decide (3 < term.length) &&
  !(decide (term_lower ∈ common_words)) &&
  !(term.any isPunct) &&
  !(target_words.any (fun t => isSubChars (lower t) term_lower)) &&
  !(target_words.any (fun t => isSubChars term_lower (lower t)))

/-- `CodenamesHelper._normalize_scores`. -/
def normalize_scores (scores : List (Str × ℚ)) : List (Str × ℚ) :=
  match scores with
  | [] => []
  | (k0, v0) :: rest =>
      let vals := ((k0, v0) :: rest).map Prod.snd
      let mx := vals.foldl max v0
      let mn := vals.foldl min v0
      ((k0, v0) :: rest).map fun p =>
        (p.1, if mx - mn ≠ 0 then 100 * (p.2 - mn) / (mx - mn) else 50)

/-- One step of the relation-batch loop in `_combine_data_sources`:
validity, frequency and part-of-speech filters, then the weighted
accumulation `combined[term] += data['score'] * weight`. -/
def srcStep (word : Str) (wiki_terms : List Str) (m : List (Str × ℚ))
    (p : Str × DMData) : List (Str × ℚ) :=
  if is_valid_term p.1 [word] = false then m
  else if p.2.freq < min_word_frequency then m
  else if ¬ (p.2.pos = str "adj" ∨ p.2.pos = str "n") then m
  else
    let weight : ℚ :=
      (if p.2.pos = str "adj" then 1.2 else 1) *
      (if p.1 ∈ wiki_terms then 1.5 else 1)
    dinsert m p.1 (dlookupD m p.1 0 + p.2.score * weight)

/-- The relation-batch part of `_combine_data_sources`: the four
relation batches accumulated into the `combined` defaultdict, before
the Wikipedia-term loop. -/
def combineSources (env : Env) (word : Str) : List (Str × ℚ) :=
  let wiki_terms := get_wikipedia_links env word
  [get_adjectives env word, get_nouns env word,
   get_triggers env word, get_contextual env word].foldl
    (fun m src => src.foldl (srcStep word wiki_terms) m) []

/-- One step of the Wikipedia-term loop in `_combine_data_sources`:
`combined[term] += 80` for valid link titles. -/
def wikiStep (word : Str) (m : List (Str × ℚ)) (term : Str) :
    List (Str × ℚ) :=
  if is_valid_term term [word] then dinsert m term (dlookupD m term 0 + 80)
  else m

/-- `CodenamesHelper._combine_data_sources`. -/
def combine_data_sources (env : Env) (word : Str) : List (Str × ℚ) :=
  (get_wikipedia_links env word).foldl (wikiStep word)
    (combineSources env word)

/-- One value of the `connection_map` defaultdict in
`find_common_associations`. -/
structure ConnEntry where
  words : List Str
  scores : List (Str × ℚ)
  total_score : ℚ

/-- The default `connection_map` value. -/
def emptyEntry : ConnEntry := ⟨[], [], 0⟩

/-- Python `set.add` on a set modelled as a duplicate-free list. -/
def insertIfAbsent (l : List Str) (a : Str) : List Str :=
  if a ∈ l then l else l ++ [a]

/-- The skip condition of the accumulation loop in
`find_common_associations`: the lowercased term equals some lowercased
target or avoid word. -/
def skipTerm (target_words avoid_words : List Str) (term : Str) : Bool :=
  decide (lower term ∈ target_words.map lower) ||
  decide (lower term ∈ avoid_words.map lower)

/-- The three mutations performed on a `connection_map` entry. -/
def updateEntry (e : ConnEntry) (tw : Str) (score : ℚ) : ConnEntry :=
  ⟨insertIfAbsent e.words tw, dinsert e.scores tw score,
   e.total_score + score⟩

/-- One step of the accumulation loop in `find_common_associations`,
for target word `tw` and one `(term, score)` pair of its aggregation. -/
def connStep (target_words avoid_words : List Str) (tw : Str)
    (m : List (Str × ConnEntry)) (p : Str × ℚ) : List (Str × ConnEntry) :=
  if skipTerm target_words avoid_words p.1 then m
  else dinsert m p.1 (updateEntry (dlookupD m p.1 emptyEntry) tw p.2)

/-- The fully accumulated `connection_map` of
`find_common_associations`. -/
def buildConnectionMap (env : Env) (target_words avoid_words : List Str) :
    List (Str × ConnEntry) :=
  target_words.foldl
    (fun m tw =>
      (combine_data_sources env tw).foldl
        (connStep target_words avoid_words tw) m) []

/-- One value of the `filtered` dict returned by
`find_common_associations`. -/
structure Record where
  count : ℕ
  score : ℚ
  words : List Str
  breakdown : List (Str × ℚ)
  deriving DecidableEq

/-- `CodenamesHelper.find_common_associations`. -/
def find_common_associations (env : Env) (target_words avoid_words : List Str) :
    List (Str × Record) :=
  (buildConnectionMap env target_words avoid_words).filterMap fun p =>
    if min_connection_count ≤ p.2.words.length ∧
        is_valid_term p.1 target_words = true then
      some (p.1,
        ⟨p.2.words.length,
         p.2.total_score + (p.2.words.length : ℚ) * 50,
         p.2.words, p.2.scores⟩)
    else none

/-- One element of the list returned by `get_sorted_hints`. -/
structure Hint where
  word : Str
  count : ℕ
  score : ℚ
  connected_words : List Str
  deriving DecidableEq

/-- The comparison induced by the Python sort key
`(-count, -score, term)`: `a` may come before `b`. -/
def hintLE (a b : Str × Record) : Bool :=
  decide (b.2.count < a.2.count) ||
  (decide (a.2.count = b.2.count) &&
    (decide (b.2.score < a.2.score) ||
      (decide (a.2.score = b.2.score) && decide (a.1 ≤ b.1))))

/-- `CodenamesHelper.get_sorted_hints`. -/
def get_sorted_hints (associations : List (Str × Record)) : List Hint :=
  (associations.mergeSort hintLE).map fun p =>
    ⟨p.1, p.2.count, p.2.score, p.2.words⟩

/-- The target words whose per-word aggregation produced `term`,
in target-list order and with the target list's multiplicities. -/
def producingTargets (env : Env) (target_words : List Str) (term : Str) :
    List Str :=
  target_words.filter fun tw =>
    (dlookup (combine_data_sources env tw) term).isSome

/-- The per-word aggregated score of `term` for target word `tw`
(0 when the aggregation does not contain the term). -/
def scoreOf (env : Env) (term tw : Str) : ℚ :=
  dlookupD (combine_data_sources env tw) term 0

/-- The `connection_map` entry accumulated by visiting the target
words `tws` in order, starting from `e`. -/
def accumEntry (sc : Str → ℚ) (e : ConnEntry) (tws : List Str) : ConnEntry :=
  tws.foldl (fun e tw => updateEntry e tw (sc tw)) e

/-- Apply the `connection_map` mutations of the target words `tws` to
an optional pre-existing entry (`none`: the term was never seen). -/
def applyHits (sc : Str → ℚ) (tws : List Str) (e0 : Option ConnEntry) :
    Option ConnEntry :=
  tws.foldl (fun eo tw => some (updateEntry (eo.getD emptyEntry) tw (sc tw))) e0

/-- The spec's per-batch normalization step, stated in the spec's words
for comparison with the implementation: every relation batch's scores
are rescaled to 0–100 by `_normalize_scores` before weighting. -/
def normalizeBatch (src : List (Str × DMData)) : List (Str × DMData) :=
  let normed := normalize_scores (src.map fun p => (p.1, p.2.score))
  src.map fun p => (p.1, ⟨dlookupD normed p.1 p.2.score, p.2.freq, p.2.pos⟩)

/-- The aggregator as the spec describes it: identical to
`combine_data_sources` except that each relation batch is normalized to
0–100 before the weighted combination. -/
def combine_data_sources_specNormalized (env : Env) (word : Str) :
    List (Str × ℚ) :=
  let wiki_terms := get_wikipedia_links env word
  let afterSources :=
    ([get_adjectives env word, get_nouns env word, get_triggers env word,
      get_contextual env word].map normalizeBatch).foldl
      (fun m src => src.foldl (srcStep word wiki_terms) m) []
  wiki_terms.foldl (wikiStep word) afterSources

/-- A concrete world: for the seed words `fish` and `bird` the trigger
relation returns the single term `note` with score 10, frequency tag
`f:5.0` and part-of-speech tag `n`; every other call succeeds with no
data and no page has links. -/
def envA : Env where
  dm := fun r w =>
    if r = "rel_trg" ∧ (w = str "fish" ∨ w = str "bird") then
      some [⟨str "note", 10, some [str "f:5.0", str "n"]⟩]
    else some []
  wiki := fun _ => []
  wiki_nodup := fun _ => List.nodup_nil

/-- A concrete world: the relation service always succeeds with no
data, and the page of `apple` has the single link `stone fruit`. -/
def envB : Env where
  dm := fun _ _ => some []
  wiki := fun w => if w = str "apple" then [str "stone fruit"] else []
  wiki_nodup := by
    intro w
    dsimp only
    split <;> simp

/-- A concrete world: for the seed word `tree` the trigger relation
returns the single term `atom` with raw score 200; everything else is
empty. -/
def envC2 : Env where
  dm := fun r w =>
    if r = "rel_trg" ∧ w = str "tree" then
      some [⟨str "atom", 200, some [str "f:5.0", str "n"]⟩]
    else some []
  wiki := fun _ => []
  wiki_nodup := fun _ => List.nodup_nil

/-- A concrete world where the trigger-relation call for `fish` raises
while the contextual call for `fish` succeeds with the term `scale`. -/
def envC7a : Env where
  dm := fun r w =>
    if r = "rel_trg" ∧ w = str "fish" then none
    else if r = "lc" ∧ w = str "fish" then
      some [⟨str "scale", 20, some [str "f:3.0", str "n"]⟩]
    else some []
  wiki := fun _ => []
  wiki_nodup := fun _ => List.nodup_nil

/-- The same world as `envC7a` except that the trigger-relation call
for `fish` succeeds with an empty response instead of raising. -/
def envC7b : Env where
  dm := fun r w =>
    if r = "rel_trg" ∧ w = str "fish" then some []
    else if r = "lc" ∧ w = str "fish" then
      some [⟨str "scale", 20, some [str "f:3.0", str "n"]⟩]
    else some []
  wiki := fun _ => []
  wiki_nodup := fun _ => List.nodup_nil

/-- A concrete world: the trigger batch for `cat` holds one well-formed
item (`alpha`, frequency tag `f:2.5`) and one item whose frequency tag
`f:xyz` does not parse as a number. -/
def envC8 : Env where
  dm := fun r w =>
    if r = "rel_trg" ∧ w = str "cat" then
      some [⟨str "alpha", 10, some [str "f:2.5", str "n"]⟩,
            ⟨str "beta", 5, some [str "f:xyz", str "n"]⟩]
    else some []
  wiki := fun _ => []
  wiki_nodup := fun _ => List.nodup_nil

/-- A concrete world: the trigger batch for `cat` holds one well-formed
item (`alpha`) and one item with no `tags` metadata at all. -/
def envC8b : Env where
  dm := fun r w =>
    if r = "rel_trg" ∧ w = str "cat" then
      some [⟨str "alpha", 10, some [str "f:2.5", str "n"]⟩,
            ⟨str "beta", 7, none⟩]
    else some []
  wiki := fun _ => []
  wiki_nodup := fun _ => List.nodup_nil

end Codenames

namespace Codenames

theorem dlookup_dinsert_self {α : Type} (m : List (Str × α)) (k : Str) (v : α) :
    dlookup (dinsert m k v) k = some v := by
  induction m with
  | nil => simp [dinsert, dlookup]
  | cons p rest ih =>
      obtain ⟨k0, v0⟩ := p
      by_cases h : k0 = k
      · subst h; simp [dinsert, dlookup]
      · simp [dinsert, dlookup, h, ih]

theorem dlookup_dinsert_ne {α : Type} (m : List (Str × α)) {k k' : Str} (v : α)
    (h : k' ≠ k) : dlookup (dinsert m k v) k' = dlookup m k' := by
  have h' : ¬ k = k' := fun hh => h hh.symm
  induction m with
  | nil => simp [dinsert, dlookup, h']
  | cons p rest ih =>
      obtain ⟨k0, v0⟩ := p
      by_cases h0 : k0 = k
      · subst h0
        simp only [dinsert, if_pos rfl, dlookup]
        simp [h']
      · simp only [dinsert, if_neg h0, dlookup]
        by_cases h1 : k0 = k'
        · simp [h1]
        · simp [h1, ih]

theorem mem_dkeys_cons {α : Type} {k k0 : Str} {v0 : α} {rest : List (Str × α)} :
    k ∈ dkeys ((k0, v0) :: rest) ↔ k = k0 ∨ k ∈ dkeys rest := by
  simp [dkeys]

theorem dkeys_dinsert_mem {α : Type} {m : List (Str × α)} {k : Str} (v : α)
    (h : k ∈ dkeys m) : dkeys (dinsert m k v) = dkeys m := by
  induction m with
  | nil => simp [dkeys] at h
  | cons p rest ih =>
      obtain ⟨k0, v0⟩ := p
      by_cases h0 : k0 = k
      · subst h0; simp [dinsert, dkeys]
      · have hk : k ∈ dkeys rest := by
          rcases mem_dkeys_cons.mp h with h1 | h1
          · exact absurd h1.symm h0
          · exact h1
        simp [dinsert, h0, dkeys, ih hk]

theorem dkeys_dinsert_notMem {α : Type} {m : List (Str × α)} {k : Str} (v : α)
    (h : k ∉ dkeys m) : dkeys (dinsert m k v) = dkeys m ++ [k] := by
  induction m with
  | nil => simp [dinsert, dkeys]
  | cons p rest ih =>
      obtain ⟨k0, v0⟩ := p
      have h0 : ¬ k0 = k := fun hh => h (mem_dkeys_cons.mpr (Or.inl hh.symm))
      have hk : k ∉ dkeys rest := fun hh => h (mem_dkeys_cons.mpr (Or.inr hh))
      simp [dinsert, h0, dkeys, ih hk]

theorem nodup_dkeys_dinsert {α : Type} {m : List (Str × α)} (k : Str) (v : α)
    (h : (dkeys m).Nodup) : (dkeys (dinsert m k v)).Nodup := by
  by_cases hk : k ∈ dkeys m
  · rw [dkeys_dinsert_mem v hk]; exact h
  · rw [dkeys_dinsert_notMem v hk]
    simpa [List.nodup_append] using ⟨h, hk⟩

theorem dlookup_isSome_iff {α : Type} (m : List (Str × α)) (k : Str) :
    (dlookup m k).isSome ↔ k ∈ dkeys m := by
  induction m with
  | nil => simp [dlookup, dkeys]
  | cons p rest ih =>
      obtain ⟨k0, v0⟩ := p
      by_cases h0 : k0 = k
      · subst h0; simp [dlookup, dkeys]
      · have h1 : ¬ k = k0 := fun hh => h0 hh.symm
        simp [dlookup, dkeys, h0, h1, ih]

theorem dlookup_eq_none_iff {α : Type} (m : List (Str × α)) (k : Str) :
    dlookup m k = none ↔ k ∉ dkeys m := by
  rw [← dlookup_isSome_iff]
  cases dlookup m k <;> simp

theorem nodup_dkeys_tail {α : Type} {k0 : Str} {v0 : α} {rest : List (Str × α)}
    (h : (dkeys ((k0, v0) :: rest)).Nodup) :
    k0 ∉ dkeys rest ∧ (dkeys rest).Nodup := by
  rw [show dkeys ((k0, v0) :: rest) = k0 :: dkeys rest from rfl] at h
  exact ⟨(List.nodup_cons.mp h).1, (List.nodup_cons.mp h).2⟩

theorem fst_mem_dkeys {α : Type} {m : List (Str × α)} {k : Str} {v : α}
    (h : (k, v) ∈ m) : k ∈ dkeys m := by
  induction m with
  | nil => simp at h
  | cons p rest ih =>
      obtain ⟨k0, v0⟩ := p
      rcases List.mem_cons.mp h with h1 | h1
      · rw [show k = k0 from congrArg Prod.fst h1]
        exact mem_dkeys_cons.mpr (Or.inl rfl)
      · exact mem_dkeys_cons.mpr (Or.inr (ih h1))

theorem dlookup_of_mem_nodup {α : Type} {m : List (Str × α)} {k : Str} {v : α}
    (hnd : (dkeys m).Nodup) (h : (k, v) ∈ m) : dlookup m k = some v := by
  induction m with
  | nil => simp at h
  | cons p rest ih =>
      obtain ⟨k0, v0⟩ := p
      rcases List.mem_cons.mp h with h1 | h1
      · have hk : k0 = k := (congrArg Prod.fst h1).symm
        have hv : v0 = v := (congrArg Prod.snd h1).symm
        simp [dlookup, hk, hv]
      · have h0 : ¬ k0 = k := by
          intro hh; subst hh
          exact (nodup_dkeys_tail hnd).1 (fst_mem_dkeys h1)
        simp [dlookup, h0, ih (nodup_dkeys_tail hnd).2 h1]

theorem mem_of_dlookup {α : Type} {m : List (Str × α)} {k : Str} {v : α}
    (h : dlookup m k = some v) : (k, v) ∈ m := by
  induction m with
  | nil => simp [dlookup] at h
  | cons p rest ih =>
      obtain ⟨k0, v0⟩ := p
      by_cases h0 : k0 = k
      · subst h0
        simp [dlookup] at h
        simp [h]
      · simp [dlookup, h0] at h
        exact List.mem_cons_of_mem _ (ih h)

theorem dinsert_of_notMem {α : Type} {m : List (Str × α)} {k : Str} (v : α)
    (h : k ∉ dkeys m) : dinsert m k v = m ++ [(k, v)] := by
  induction m with
  | nil => simp [dinsert]
  | cons p rest ih =>
      obtain ⟨k0, v0⟩ := p
      have h0 : ¬ k0 = k := fun hh => h (mem_dkeys_cons.mpr (Or.inl hh.symm))
      have hk : k ∉ dkeys rest := fun hh => h (mem_dkeys_cons.mpr (Or.inr hh))
      simp [dinsert, h0, ih hk]

theorem mem_dkeys_dinsert {α : Type} {m : List (Str × α)} {k term : Str}
    {v : α} : term ∈ dkeys (dinsert m k v) ↔ term ∈ dkeys m ∨ term = k := by
  by_cases hk : k ∈ dkeys m
  · rw [dkeys_dinsert_mem v hk]
    exact ⟨Or.inl, fun h => h.elim id (fun hh => hh ▸ hk)⟩
  · rw [dkeys_dinsert_notMem v hk]
    simp

/-- Unpacking of `_is_valid_term`: the five conjuncts of the predicate. -/
theorem is_valid_term_spec {term : Str} {targets : List Str}
    (h : is_valid_term term targets = true) :
    3 < term.length ∧ lower term ∉ common_words ∧
    term.any isPunct = false ∧
    (∀ t ∈ targets, isSubChars (lower t) (lower term) = false) ∧
    (∀ t ∈ targets, isSubChars (lower term) (lower t) = false) := by
  unfold is_valid_term at h
  simp only [Bool.and_eq_true, decide_eq_true_eq, Bool.not_eq_true',
    decide_eq_false_iff_not, List.any_eq_false] at h
  refine ⟨h.1.1.1.1, h.1.1.1.2, ?_, fun t ht => ?_, fun t ht => ?_⟩
  · simpa using h.1.1.2
  · simpa using h.1.2 t ht
  · simpa using h.2 t ht

/-- A key of the map built by one relation-batch step either was
already present or is the step's term, and that term passed the
validity filter. -/
theorem srcStep_keys {word : Str} {wt : List Str} {m : List (Str × ℚ)}
    {p : Str × DMData} {term : Str}
    (h : term ∈ dkeys (srcStep word wt m p)) :
    term ∈ dkeys m ∨ (term = p.1 ∧ is_valid_term p.1 [word] = true) := by
  unfold srcStep at h
  split at h
  · exact Or.inl h
  · split at h
    · exact Or.inl h
    · split at h
      · exact Or.inl h
      · rename_i hval _ _
        rcases mem_dkeys_dinsert.mp h with h1 | h1
        · exact Or.inl h1
        · exact Or.inr ⟨h1, Bool.not_eq_false _ ▸ hval⟩

theorem foldl_srcStep_keys {word : Str} {wt : List Str}
    {src : List (Str × DMData)} {m : List (Str × ℚ)} {term : Str}
    (h : term ∈ dkeys (src.foldl (srcStep word wt) m)) :
    term ∈ dkeys m ∨ is_valid_term term [word] = true := by
  induction src generalizing m with
  | nil => exact Or.inl h
  | cons p rest ih =>
      rcases ih (by simpa using h) with h1 | h1
      · rcases srcStep_keys h1 with h2 | h2
        · exact Or.inl h2
        · exact Or.inr (h2.1 ▸ h2.2)
      · exact Or.inr h1

theorem wikiStep_keys {word : Str} {m : List (Str × ℚ)} {t term : Str}
    (h : term ∈ dkeys (wikiStep word m t)) :
    term ∈ dkeys m ∨ is_valid_term term [word] = true := by
  unfold wikiStep at h
  split at h
  · rename_i hval
    rcases mem_dkeys_dinsert.mp h with h1 | h1
    · exact Or.inl h1
    · exact Or.inr (h1 ▸ hval)
  · exact Or.inl h

theorem foldl_wikiStep_keys {word : Str} {l : List Str}
    {m : List (Str × ℚ)} {term : Str}
    (h : term ∈ dkeys (l.foldl (wikiStep word) m)) :
    term ∈ dkeys m ∨ is_valid_term term [word] = true := by
  induction l generalizing m with
  | nil => exact Or.inl h
  | cons t rest ih =>
      rcases ih (by simpa using h) with h1 | h1
      · exact wikiStep_keys h1
      · exact Or.inr h1

/-- Every term of the per-word aggregation passed the validity filter
against its seed word. -/
theorem combine_keys_valid {env : Env} {word term : Str}
    (h : term ∈ dkeys (combine_data_sources env word)) :
    is_valid_term term [word] = true := by
  unfold combine_data_sources at h
  rcases foldl_wikiStep_keys h with h1 | h1
  · unfold combineSources at h1
    simp only [List.foldl_cons, List.foldl_nil] at h1
    rcases foldl_srcStep_keys h1 with h2 | h2
    · rcases foldl_srcStep_keys h2 with h3 | h3
      · rcases foldl_srcStep_keys h3 with h4 | h4
        · rcases foldl_srcStep_keys h4 with h5 | h5
          · simp [dkeys] at h5
          · exact h5
        · exact h4
      · exact h3
    · exact h2
  · exact h1

theorem nodup_keys_srcStep {word : Str} {wt : List Str}
    {m : List (Str × ℚ)} {p : Str × DMData}
    (h : (dkeys m).Nodup) : (dkeys (srcStep word wt m p)).Nodup := by
  unfold srcStep
  split
  · exact h
  · split
    · exact h
    · split
      · exact h
      · exact nodup_dkeys_dinsert _ _ h

theorem nodup_keys_wikiStep {word : Str} {m : List (Str × ℚ)} {t : Str}
    (h : (dkeys m).Nodup) : (dkeys (wikiStep word m t)).Nodup := by
  unfold wikiStep
  split
  · exact nodup_dkeys_dinsert _ _ h
  · exact h

theorem nodup_keys_foldl_srcStep {word : Str} {wt : List Str}
    {src : List (Str × DMData)} {m : List (Str × ℚ)}
    (h : (dkeys m).Nodup) : (dkeys (src.foldl (srcStep word wt) m)).Nodup := by
  induction src generalizing m with
  | nil => exact h
  | cons p rest ih => exact ih (nodup_keys_srcStep h)

theorem nodup_keys_foldl_wikiStep {word : Str} {l : List Str}
    {m : List (Str × ℚ)} (h : (dkeys m).Nodup) :
    (dkeys (l.foldl (wikiStep word) m)).Nodup := by
  induction l generalizing m with
  | nil => exact h
  | cons t rest ih => exact ih (nodup_keys_wikiStep h)

/-- The keys of a per-word aggregation are distinct (it models a Python
dict). -/
theorem nodup_keys_combine (env : Env) (word : Str) :
    (dkeys (combine_data_sources env word)).Nodup := by
  unfold combine_data_sources combineSources
  simp only [List.foldl_cons, List.foldl_nil]
  exact nodup_keys_foldl_wikiStep
    (nodup_keys_foldl_srcStep (nodup_keys_foldl_srcStep
      (nodup_keys_foldl_srcStep (nodup_keys_foldl_srcStep (by simp [dkeys])))))

theorem wikiStep_lookup_ne {word : Str} {m : List (Str × ℚ)} {t term : Str}
    (h : term ≠ t) : dlookup (wikiStep word m t) term = dlookup m term := by
  unfold wikiStep
  split
  · exact dlookup_dinsert_ne m _ h
  · rfl

theorem foldl_wikiStep_notMem {word : Str} {l : List Str}
    {m : List (Str × ℚ)} {term : Str} (h : term ∉ l) :
    dlookup (l.foldl (wikiStep word) m) term = dlookup m term := by
  induction l generalizing m with
  | nil => rfl
  | cons t rest ih =>
      have h1 : term ≠ t := fun hh => h (hh ▸ List.mem_cons_self t rest)
      have h2 : term ∉ rest := fun hh => h (List.mem_cons_of_mem _ hh)
      simp only [List.foldl_cons]
      rw [ih h2, wikiStep_lookup_ne h1]

/-- The Wikipedia loop of `_combine_data_sources` adds a flat 80 points
to every valid link title, on top of whatever the relation batches
already accumulated for it. -/
theorem foldl_wikiStep_mem {word : Str} {l : List Str}
    {m : List (Str × ℚ)} {term : Str} (hmem : term ∈ l) (hnd : l.Nodup)
    (hval : is_valid_term term [word] = true) :
    dlookup (l.foldl (wikiStep word) m) term =
      some (dlookupD m term 0 + 80) := by
  induction l generalizing m with
  | nil => simp at hmem
  | cons t rest ih =>
      simp only [List.foldl_cons]
      by_cases h1 : term = t
      · subst h1
        have hrest : term ∉ rest := (List.nodup_cons.mp hnd).1
        rw [foldl_wikiStep_notMem hrest]
        unfold wikiStep
        rw [if_pos hval]
        exact dlookup_dinsert_self m term _
      · have hmem' : term ∈ rest := by
          rcases List.mem_cons.mp hmem with h2 | h2
          · exact absurd h2 h1
          · exact h2
        rw [ih hmem' (List.nodup_cons.mp hnd).2]
        unfold dlookupD
        rw [wikiStep_lookup_ne h1]

end Codenames

namespace Codenames

theorem connStep_lookup_ne {ts as : List Str} {tw : Str}
    {m : List (Str × ConnEntry)} {p : Str × ℚ} {term : Str}
    (h : term ≠ p.1) :
    dlookup (connStep ts as tw m p) term = dlookup m term := by
  unfold connStep
  split
  · rfl
  · exact dlookup_dinsert_ne m _ h

theorem connStep_skip {ts as : List Str} {tw : Str}
    {m : List (Str × ConnEntry)} {p : Str × ℚ}
    (h : skipTerm ts as p.1 = true) : connStep ts as tw m p = m := by
  unfold connStep
  rw [if_pos h]

theorem connStep_no_skip {ts as : List Str} {tw : Str}
    {m : List (Str × ConnEntry)} {p : Str × ℚ}
    (h : ¬ skipTerm ts as p.1 = true) :
    connStep ts as tw m p =
      dinsert m p.1 (updateEntry (dlookupD m p.1 emptyEntry) tw p.2) := by
  unfold connStep
  rw [if_neg h]

/-- Effect of one per-word aggregation batch on one `connection_map`
entry: a skipped term is untouched, a term absent from the batch is
untouched, and a term of the batch is updated exactly once. -/
theorem foldl_connStep_lookup {ts as : List Str} {tw : Str}
    {assoc : List (Str × ℚ)} (hnd : (dkeys assoc).Nodup) (term : Str) :
    ∀ m, dlookup (assoc.foldl (connStep ts as tw) m) term =
      if skipTerm ts as term = true then dlookup m term
      else
        match dlookup assoc term with
        | some s => some (updateEntry (dlookupD m term emptyEntry) tw s)
        | none => dlookup m term := by
  induction assoc with
  | nil =>
      intro m
      by_cases hsk : skipTerm ts as term = true <;> simp [dlookup, hsk]
  | cons q rest ih =>
      intro m
      obtain ⟨k, s⟩ := q
      simp only [List.foldl_cons]
      rw [ih (nodup_dkeys_tail hnd).2 (connStep ts as tw m (k, s))]
      by_cases hsk : skipTerm ts as term = true
      · rw [if_pos hsk, if_pos hsk]
        by_cases hk : term = k
        · subst hk
          rw [connStep_skip hsk]
        · exact connStep_lookup_ne hk
      · rw [if_neg hsk, if_neg hsk]
        by_cases hk : k = term
        · subst hk
          have hrest : dlookup rest k = none :=
            (dlookup_eq_none_iff rest k).mpr (nodup_dkeys_tail hnd).1
          have hstep : connStep ts as tw m (k, s) =
              dinsert m k (updateEntry (dlookupD m k emptyEntry) tw s) :=
            connStep_no_skip hsk
          rw [hrest, hstep]
          simp [dlookup, dlookup_dinsert_self]
        · have hne : term ≠ k := fun hh => hk hh.symm
          have h1 : dlookup (connStep ts as tw m (k, s)) term =
              dlookup m term := connStep_lookup_ne hne
          have h2 : dlookupD (connStep ts as tw m (k, s)) term emptyEntry =
              dlookupD m term emptyEntry := by
            unfold dlookupD; rw [h1]
          rw [h1, h2]
          simp [dlookup, hk]

/-- Effect of the whole accumulation loop of `find_common_associations`
on one `connection_map` entry. -/
theorem foldl_targets_lookup (env : Env) (ts as : List Str) (term : Str) :
    ∀ (tws : List Str) (m : List (Str × ConnEntry)),
      dlookup (tws.foldl (fun m tw =>
        (combine_data_sources env tw).foldl (connStep ts as tw) m) m) term =
      if skipTerm ts as term = true then dlookup m term
      else applyHits (scoreOf env term)
        (tws.filter fun tw =>
          (dlookup (combine_data_sources env tw) term).isSome)
        (dlookup m term) := by
  intro tws
  induction tws with
  | nil =>
      intro m
      by_cases hsk : skipTerm ts as term = true <;> simp [applyHits, hsk]
  | cons tw rest ih =>
      intro m
      simp only [List.foldl_cons]
      rw [ih]
      rw [foldl_connStep_lookup (nodup_keys_combine env tw) term m]
      by_cases hsk : skipTerm ts as term = true
      · rw [if_pos hsk, if_pos hsk, if_pos hsk]
      · rw [if_neg hsk, if_neg hsk, if_neg hsk]
        cases hsome : dlookup (combine_data_sources env tw) term with
        | some s =>
            have hsc : scoreOf env term tw = s := by
              unfold scoreOf dlookupD; rw [hsome]; rfl
            simp only [List.filter_cons, hsome, Option.isSome_some, if_true]
            simp only [applyHits, List.foldl_cons, Option.getD_some]
            rw [hsc]
            rfl
        | none =>
            simp only [List.filter_cons, hsome, Option.isSome_none,
              Bool.false_eq_true, if_false]

theorem buildConnectionMap_lookup (env : Env) (ts as : List Str)
    (term : Str) :
    dlookup (buildConnectionMap env ts as) term =
      if skipTerm ts as term = true then none
      else applyHits (scoreOf env term) (producingTargets env ts term)
        none := by
  unfold buildConnectionMap producingTargets
  rw [foldl_targets_lookup env ts as term ts []]
  by_cases hsk : skipTerm ts as term = true <;> simp [dlookup, hsk]

theorem applyHits_some (sc : Str → ℚ) (tws : List Str) (e : ConnEntry) :
    applyHits sc tws (some e) = some (accumEntry sc e tws) := by
  induction tws generalizing e with
  | nil => rfl
  | cons tw rest ih =>
      simp only [applyHits, List.foldl_cons, Option.getD_some] at ih ⊢
      rw [ih]
      rfl

theorem applyHits_none_of_ne_nil (sc : Str → ℚ) {tws : List Str}
    (h : tws ≠ []) :
    applyHits sc tws none = some (accumEntry sc emptyEntry tws) := by
  cases tws with
  | nil => exact absurd rfl h
  | cons tw rest =>
      have : applyHits sc (tw :: rest) none =
          applyHits sc rest (some (updateEntry emptyEntry tw (sc tw))) := rfl
      rw [this, applyHits_some]
      rfl

theorem accumEntry_eq (sc : Str → ℚ) (e : ConnEntry) (tws : List Str) :
    accumEntry sc e tws =
      ⟨tws.foldl insertIfAbsent e.words,
       tws.foldl (fun m tw => dinsert m tw (sc tw)) e.scores,
       e.total_score + (tws.map sc).sum⟩ := by
  induction tws generalizing e with
  | nil =>
      obtain ⟨w, s, t⟩ := e
      simp [accumEntry]
  | cons tw rest ih =>
      simp only [accumEntry, List.foldl_cons, List.map_cons, List.sum_cons]
        at ih ⊢
      rw [ih]
      simp [updateEntry, add_assoc]

end Codenames

namespace Codenames

theorem mem_insertIfAbsent {l : List Str} {a x : Str} :
    x ∈ insertIfAbsent l a ↔ x ∈ l ∨ x = a := by
  unfold insertIfAbsent
  split
  · rename_i h
    constructor
    · exact Or.inl
    · rintro (hx | rfl)
      · exact hx
      · exact h
  · simp [List.mem_append]

theorem nodup_foldl_insertIfAbsent {l : List Str} : ∀ {acc : List Str},
    acc.Nodup → (l.foldl insertIfAbsent acc).Nodup := by
  induction l with
  | nil => exact fun h => h
  | cons a as ih =>
      intro acc h
      simp only [List.foldl_cons]
      apply ih
      unfold insertIfAbsent
      split
      · exact h
      · rename_i hna
        simp [List.nodup_append, h, hna]

theorem mem_foldl_insertIfAbsent {l : List Str} : ∀ {acc : List Str} {x : Str},
    x ∈ l.foldl insertIfAbsent acc ↔ x ∈ acc ∨ x ∈ l := by
  induction l with
  | nil => simp
  | cons a as ih =>
      intro acc x
      simp only [List.foldl_cons, List.mem_cons]
      rw [ih, mem_insertIfAbsent]
      tauto

theorem foldl_insertIfAbsent_append {l : List Str} : ∀ {acc : List Str},
    l.Nodup → (∀ x ∈ l, x ∉ acc) → l.foldl insertIfAbsent acc = acc ++ l := by
  induction l with
  | nil => simp
  | cons a as ih =>
      intro acc hnd hdisj
      simp only [List.foldl_cons]
      have ha : a ∉ acc := hdisj a (List.mem_cons_self a as)
      have hstep : insertIfAbsent acc a = acc ++ [a] := by
        unfold insertIfAbsent; rw [if_neg ha]
      rw [hstep, ih (List.nodup_cons.mp hnd).2 ?_]
      · simp
      · intro x hx
        rw [List.mem_append]
        rintro (hx1 | hx1)
        · exact hdisj x (List.mem_cons_of_mem _ hx) hx1
        · have hxa : x = a := by simpa using hx1
          exact (List.nodup_cons.mp hnd).1 (hxa ▸ hx)

theorem length_foldl_insertIfAbsent (l : List Str) :
    (l.foldl insertIfAbsent []).length = l.toFinset.card := by
  have h1 : (l.foldl insertIfAbsent []).Nodup :=
    nodup_foldl_insertIfAbsent List.nodup_nil
  have h2 : (l.foldl insertIfAbsent []).toFinset = l.toFinset := by
    ext x
    simp [List.mem_toFinset, mem_foldl_insertIfAbsent]
  rw [← h2]
  exact (List.toFinset_card_of_nodup h1).symm

theorem dkeys_append {α : Type} (m1 m2 : List (Str × α)) :
    dkeys (m1 ++ m2) = dkeys m1 ++ dkeys m2 := by
  induction m1 with
  | nil => simp [dkeys]
  | cons p rest ih =>
      obtain ⟨k, v⟩ := p
      simp [dkeys, ih]

theorem foldl_dinsert_fresh (sc : Str → ℚ) {l : List Str} :
    ∀ {acc : List (Str × ℚ)}, l.Nodup → (∀ x ∈ l, x ∉ dkeys acc) →
    l.foldl (fun m tw => dinsert m tw (sc tw)) acc =
      acc ++ l.map (fun tw => (tw, sc tw)) := by
  induction l with
  | nil => simp
  | cons a as ih =>
      intro acc hnd hdisj
      simp only [List.foldl_cons, List.map_cons]
      rw [dinsert_of_notMem _ (hdisj a (List.mem_cons_self a as))]
      rw [ih (List.nodup_cons.mp hnd).2 ?_]
      · simp
      · intro x hx
        rw [dkeys_append, List.mem_append]
        rintro (hx1 | hx1)
        · exact hdisj x (List.mem_cons_of_mem _ hx) hx1
        · have hxa : x = a := by simpa [dkeys] using hx1
          exact (List.nodup_cons.mp hnd).1 (hxa ▸ hx)

theorem nodup_keys_connStep {ts as : List Str} {tw : Str}
    {m : List (Str × ConnEntry)} {p : Str × ℚ}
    (h : (dkeys m).Nodup) : (dkeys (connStep ts as tw m p)).Nodup := by
  unfold connStep
  split
  · exact h
  · exact nodup_dkeys_dinsert _ _ h

theorem nodup_keys_foldl_connStep {ts as : List Str} {tw : Str}
    {assoc : List (Str × ℚ)} : ∀ {m : List (Str × ConnEntry)},
    (dkeys m).Nodup → (dkeys (assoc.foldl (connStep ts as tw) m)).Nodup := by
  induction assoc with
  | nil => exact fun h => h
  | cons q rest ih =>
      intro m h
      simp only [List.foldl_cons]
      exact ih (nodup_keys_connStep h)

theorem nodup_keys_buildConnectionMap (env : Env) (ts as : List Str) :
    (dkeys (buildConnectionMap env ts as)).Nodup := by
  unfold buildConnectionMap
  have main : ∀ (tws : List Str) (m : List (Str × ConnEntry)),
      (dkeys m).Nodup →
      (dkeys (tws.foldl (fun m tw =>
        (combine_data_sources env tw).foldl (connStep ts as tw) m) m)).Nodup := by
    intro tws
    induction tws with
    | nil => exact fun m h => h
    | cons tw rest ih =>
        intro m h
        simp only [List.foldl_cons]
        exact ih _ (nodup_keys_foldl_connStep h)
  exact main ts [] (by simp [dkeys])

theorem of_mem_find_common {env : Env} {ts as : List Str} {term : Str}
    {r : Record} (h : (term, r) ∈ find_common_associations env ts as) :
    ∃ e, (term, e) ∈ buildConnectionMap env ts as ∧
      min_connection_count ≤ e.words.length ∧
      is_valid_term term ts = true ∧
      r = ⟨e.words.length, e.total_score + (e.words.length : ℚ) * 50,
           e.words, e.scores⟩ := by
  unfold find_common_associations at h
  rcases List.mem_filterMap.mp h with ⟨⟨t0, e⟩, hmem, hf⟩
  dsimp only at hf
  by_cases hc : min_connection_count ≤ e.words.length ∧
      is_valid_term t0 ts = true
  · rw [if_pos hc] at hf
    have hinj := Option.some.inj hf
    have ht : t0 = term := congrArg Prod.fst hinj
    have hr : r = ⟨e.words.length,
        e.total_score + (e.words.length : ℚ) * 50, e.words, e.scores⟩ :=
      (congrArg Prod.snd hinj).symm
    subst ht
    exact ⟨e, hmem, hc.1, hc.2, hr⟩
  · rw [if_neg hc] at hf
    cases hf

/-- The shape of every record returned by `find_common_associations`:
it survived the skip filter, the connectivity threshold and the
validity filter, and its fields are exactly the accumulation over the
target words whose aggregation produced the term. -/
theorem find_common_entry {env : Env} {ts as : List Str} {term : Str}
    {r : Record} (h : (term, r) ∈ find_common_associations env ts as) :
    skipTerm ts as term = false ∧
    is_valid_term term ts = true ∧
    min_connection_count ≤ r.count ∧
    r.count = r.words.length ∧
    r.words = (producingTargets env ts term).foldl insertIfAbsent [] ∧
    r.breakdown = (producingTargets env ts term).foldl
      (fun m tw => dinsert m tw (scoreOf env term tw)) [] ∧
    r.score = ((producingTargets env ts term).map (scoreOf env term)).sum +
      (r.count : ℚ) * 50 := by
  obtain ⟨e, hmem, hcount, hval, hr⟩ := of_mem_find_common h
  have hlook : dlookup (buildConnectionMap env ts as) term = some e :=
    dlookup_of_mem_nodup (nodup_keys_buildConnectionMap env ts as) hmem
  have hsk : skipTerm ts as term = false := by
    cases hb : skipTerm ts as term with
    | false => rfl
    | true =>
        rw [buildConnectionMap_lookup, if_pos hb] at hlook
        cases hlook
  have hhits : applyHits (scoreOf env term) (producingTargets env ts term)
      none = some e := by
    rw [buildConnectionMap_lookup, if_neg (by simp [hsk])] at hlook
    exact hlook
  have hne : producingTargets env ts term ≠ [] := by
    intro hnil
    rw [hnil] at hhits
    cases hhits
  rw [applyHits_none_of_ne_nil _ hne, accumEntry_eq] at hhits
  have he := Option.some.inj hhits
  have hw : e.words = (producingTargets env ts term).foldl insertIfAbsent [] := by
    rw [← he]
    rfl
  have hsc : e.scores = (producingTargets env ts term).foldl
      (fun m tw => dinsert m tw (scoreOf env term tw)) [] := by
    rw [← he]
    rfl
  have htot : e.total_score =
      ((producingTargets env ts term).map (scoreOf env term)).sum := by
    rw [← he]
    exact zero_add _
  subst hr
  exact ⟨hsk, hval, hcount, rfl, hw, hsc, by rw [htot]⟩

end Codenames

namespace Codenames

theorem of_mem_get_sorted_hints {assoc : List (Str × Record)} {h : Hint}
    (hm : h ∈ get_sorted_hints assoc) :
    ∃ r, (h.word, r) ∈ assoc ∧ h.count = r.count ∧ h.score = r.score ∧
      h.connected_words = r.words := by
  unfold get_sorted_hints at hm
  rcases List.mem_map.mp hm with ⟨⟨t, r⟩, hmem, hh⟩
  rw [List.mem_mergeSort] at hmem
  subst hh
  exact ⟨r, hmem, rfl, rfl, rfl⟩

/-- C9: with a single target word every `connection_map` entry connects
at most that one word, so nothing reaches the connectivity threshold 2
and `find_common_associations` returns the empty mapping, whatever the
services answered. -/
theorem single_target_yields_empty (env : Env) (t : Str)
    (avoid_words : List Str) :
    find_common_associations env [t] avoid_words = [] := by
  unfold find_common_associations
  rw [List.filterMap_eq_nil_iff]
  intro p hp
  obtain ⟨term, e⟩ := p
  have hlook : dlookup (buildConnectionMap env [t] avoid_words) term = some e :=
    dlookup_of_mem_nodup (nodup_keys_buildConnectionMap env [t] avoid_words) hp
  rw [buildConnectionMap_lookup] at hlook
  by_cases hsk : skipTerm [t] avoid_words term = true
  · rw [if_pos hsk] at hlook
    cases hlook
  · rw [if_neg hsk] at hlook
    have hsub : producingTargets env [t] term = [] ∨
        producingTargets env [t] term = [t] := by
      unfold producingTargets
      by_cases hp1 : (dlookup (combine_data_sources env t) term).isSome = true
      · right; simp [hp1]
      · left; simp [hp1]
    have hwlen : e.words.length ≤ 1 := by
      rcases hsub with hnil | ht
      · rw [hnil] at hlook
        cases hlook
      · rw [ht, applyHits_none_of_ne_nil _ (by simp), accumEntry_eq] at hlook
        have he := Option.some.inj hlook
        have hw : e.words = [t] := by
          rw [← he]
          simp [emptyEntry, insertIfAbsent]
        rw [hw]
        simp
    dsimp only
    rw [if_neg]
    rintro ⟨hc, _⟩
    rw [min_connection_count] at hc
    omega

/-- C5: a hint's connectivity count is exactly the number of distinct
target words whose per-word aggregation produced the term, and equals
the size of its (duplicate-free) connected-word set. -/
theorem connectivity_count_exact (env : Env)
    (target_words avoid_words : List Str) (h : Hint)
    (hm : h ∈ get_sorted_hints
      (find_common_associations env target_words avoid_words)) :
    h.count = (producingTargets env target_words h.word).toFinset.card ∧
    h.connected_words.Nodup ∧
    h.count = h.connected_words.length := by
  obtain ⟨r, hmem, hc, hs, hw⟩ := of_mem_get_sorted_hints hm
  obtain ⟨_, _, _, hcw, hwords, _, _⟩ := find_common_entry hmem
  refine ⟨?_, ?_, ?_⟩
  · rw [hc, hcw, hwords]
    exact length_foldl_insertIfAbsent _
  · rw [hw, hwords]
    exact nodup_foldl_insertIfAbsent List.nodup_nil
  · rw [hc, hw, hcw]

/-- C4 (amended): when the target-word list has no duplicates, every
record's composite score equals the sum of its per-target-word
breakdown plus 50 per connection.  (A duplicated target word adds its
score to the total once per occurrence but appears in the breakdown
only once, which is what the counterexample exploits.) -/
theorem score_decomposition_nodup (env : Env)
    (target_words avoid_words : List Str) (hnd : target_words.Nodup)
    (term : Str) (r : Record)
    (hmem : (term, r) ∈ find_common_associations env target_words avoid_words) :
    r.score = (r.breakdown.map Prod.snd).sum + (r.count : ℚ) * 50 := by
  obtain ⟨_, _, _, _, _, hbr, hsc⟩ := find_common_entry hmem
  have hhits_nd : (producingTargets env target_words term).Nodup := by
    unfold producingTargets
    exact hnd.filter _
  have hbr2 : r.breakdown = (producingTargets env target_words term).map
      (fun tw => (tw, scoreOf env term tw)) := by
    rw [hbr, foldl_dinsert_fresh _ hhits_nd (by intro x hx; simp [dkeys])]
    simp
  rw [hsc]
  congr 1
  rw [hbr2, List.map_map]
  rfl

/-- C1 (amended): a term of the final hint sequence is never (in either
direction, case-insensitively) a substring of any target word, and
never case-insensitively equals any avoid word; avoid words however
only block exact equality, not substring overlap. -/
theorem hint_overlap_freedom (env : Env)
    (target_words avoid_words : List Str) (h : Hint)
    (hm : h ∈ get_sorted_hints
      (find_common_associations env target_words avoid_words)) :
    (∀ t ∈ target_words, isSubChars (lower t) (lower h.word) = false ∧
        isSubChars (lower h.word) (lower t) = false) ∧
    (∀ a ∈ avoid_words, lower h.word ≠ lower a) := by
  obtain ⟨r, hmem, _, _, _⟩ := of_mem_get_sorted_hints hm
  obtain ⟨hsk, hval, _, _, _, _, _⟩ := find_common_entry hmem
  obtain ⟨_, _, _, h4, h5⟩ := is_valid_term_spec hval
  refine ⟨fun t ht => ⟨h4 t ht, h5 t ht⟩, fun a ha heq => ?_⟩
  unfold skipTerm at hsk
  simp only [Bool.or_eq_false_iff, decide_eq_false_iff_not] at hsk
  exact hsk.2 (by rw [heq]; exact List.mem_map_of_mem lower ha)

/-- C6 (amended): every term of a per-word aggregation passed the
validity filter, hence contains no punctuation character; but a space
is not punctuation, so multi-word terms are not discarded. -/
theorem aggregation_keys_punctuation_free (env : Env) (word term : Str)
    (h : term ∈ dkeys (combine_data_sources env word)) :
    is_valid_term term [word] = true ∧ term.any isPunct = false := by
  have hval := combine_keys_valid h
  exact ⟨hval, (is_valid_term_spec hval).2.2.1⟩

/-- C10: every valid Wikipedia link title receives the flat 80-point
addition on top of its weighted relation total — including terms the
relation batches already scored. -/
theorem wiki_bonus_additive (env : Env) (word term : Str)
    (hval : is_valid_term term [word] = true)
    (hmem : term ∈ env.wiki word) :
    dlookup (combine_data_sources env word) term =
      some (dlookupD (combineSources env word) term 0 + 80) := by
  unfold combine_data_sources get_wikipedia_links
  exact foldl_wikiStep_mem hmem (env.wiki_nodup word) hval

end Codenames

namespace Codenames

theorem hintLE_trans (a b c : Str × Record) (h1 : hintLE a b = true)
    (h2 : hintLE b c = true) : hintLE a c = true := by
  unfold hintLE at h1 h2 ⊢
  simp only [Bool.or_eq_true, Bool.and_eq_true, decide_eq_true_eq] at h1 h2 ⊢
  rcases h1 with h1 | ⟨e1, h1⟩
  · rcases h2 with h2 | ⟨e2, h2⟩
    · exact Or.inl (lt_trans h2 h1)
    · exact Or.inl (by rw [← e2]; exact h1)
  · rcases h2 with h2 | ⟨e2, h2⟩
    · exact Or.inl (by rw [e1]; exact h2)
    · refine Or.inr ⟨e1.trans e2, ?_⟩
      rcases h1 with h1 | ⟨f1, h1⟩
      · rcases h2 with h2 | ⟨f2, h2⟩
        · exact Or.inl (lt_trans h2 h1)
        · exact Or.inl (by rw [← f2]; exact h1)
      · rcases h2 with h2 | ⟨f2, h2⟩
        · exact Or.inl (by rw [f1]; exact h2)
        · exact Or.inr ⟨f1.trans f2, le_trans h1 h2⟩

theorem hintLE_total (a b : Str × Record) :
    (hintLE a b || hintLE b a) = true := by
  unfold hintLE
  simp only [Bool.or_eq_true, Bool.and_eq_true, decide_eq_true_eq]
  rcases lt_trichotomy a.2.count b.2.count with h | h | h
  · right
    left
    exact h
  · rcases lt_trichotomy a.2.score b.2.score with h2 | h2 | h2
    · right
      right
      exact ⟨h.symm, Or.inl h2⟩
    · rcases le_total a.1 b.1 with h3 | h3
      · left
        right
        exact ⟨h, Or.inr ⟨h2, h3⟩⟩
      · right
        right
        exact ⟨h.symm, Or.inr ⟨h2.symm, h3⟩⟩
    · left
      right
      exact ⟨h, Or.inl h2⟩
  · left
    left
    exact h

/-- C3: the hint sequence is sorted by descending connectivity count,
then descending composite score, then ascending lexical order of the
term: no hint violating this order precedes another. -/
theorem sorted_hints_order (associations : List (Str × Record)) :
    (get_sorted_hints associations).Pairwise (fun a b =>
      b.count < a.count ∨ (a.count = b.count ∧
        (b.score < a.score ∨ (a.score = b.score ∧ a.word ≤ b.word)))) := by
  unfold get_sorted_hints
  rw [List.pairwise_map]
  have hs := List.sorted_mergeSort hintLE_trans hintLE_total associations
  refine hs.imp ?_
  intro p q hle
  unfold hintLE at hle
  simpa only [Bool.or_eq_true, Bool.and_eq_true, decide_eq_true_eq] using hle

theorem le_foldl_max_init (l : List ℚ) (v0 : ℚ) : v0 ≤ l.foldl max v0 := by
  induction l generalizing v0 with
  | nil => exact le_refl v0
  | cons a as ih => exact le_trans (le_max_left v0 a) (ih (max v0 a))

theorem le_foldl_max_mem {l : List ℚ} {x : ℚ} (h : x ∈ l) (v0 : ℚ) :
    x ≤ l.foldl max v0 := by
  induction l generalizing v0 with
  | nil => simp at h
  | cons a as ih =>
      rcases List.mem_cons.mp h with h1 | h1
      · subst h1
        exact le_trans (le_max_right v0 x) (le_foldl_max_init as (max v0 x))
      · exact ih h1 (max v0 a)

theorem foldl_max_cases (l : List ℚ) (v0 : ℚ) :
    l.foldl max v0 = v0 ∨ l.foldl max v0 ∈ l := by
  induction l generalizing v0 with
  | nil => exact Or.inl rfl
  | cons a as ih =>
      rcases ih (max v0 a) with h | h
      · rcases max_choice v0 a with h2 | h2
        · exact Or.inl (by rw [List.foldl_cons, h, h2])
        · refine Or.inr ?_
          rw [List.foldl_cons, h, h2]
          exact List.mem_cons_self a as
      · exact Or.inr (List.mem_cons_of_mem a h)

theorem foldl_min_init_le (l : List ℚ) (v0 : ℚ) : l.foldl min v0 ≤ v0 := by
  induction l generalizing v0 with
  | nil => exact le_refl v0
  | cons a as ih => exact le_trans (ih (min v0 a)) (min_le_left v0 a)

theorem foldl_min_le_mem {l : List ℚ} {x : ℚ} (h : x ∈ l) (v0 : ℚ) :
    l.foldl min v0 ≤ x := by
  induction l generalizing v0 with
  | nil => simp at h
  | cons a as ih =>
      rcases List.mem_cons.mp h with h1 | h1
      · subst h1
        exact le_trans (foldl_min_init_le as (min v0 x)) (min_le_right v0 x)
      · exact ih h1 (min v0 a)

end Codenames

namespace Codenames

theorem foldl_min_cases (l : List ℚ) (v0 : ℚ) :
    l.foldl min v0 = v0 ∨ l.foldl min v0 ∈ l := by
  induction l generalizing v0 with
  | nil => exact Or.inl rfl
  | cons a as ih =>
      rcases ih (min v0 a) with h | h
      · rcases min_choice v0 a with h2 | h2
        · exact Or.inl (by rw [List.foldl_cons, h, h2])
        · refine Or.inr ?_
          rw [List.foldl_cons, h, h2]
          exact List.mem_cons_self a as
      · exact Or.inr (List.mem_cons_of_mem a h)

/-- C2 (amended): `_normalize_scores` does rescale a batch to 0–100
with the maximum mapped to 100, the minimum to 0, and every entry to 50
when all scores are equal — but `_combine_data_sources` never invokes
it; the aggregator weights and sums the raw scores directly. -/
theorem normalize_scores_spec (scores : List (Str × ℚ)) :
    (∀ k v, (k, v) ∈ scores → (∀ p ∈ scores, p.2 ≤ v) →
      (∃ q ∈ scores, q.2 ≠ v) → (k, (100 : ℚ)) ∈ normalize_scores scores) ∧
    (∀ k v, (k, v) ∈ scores → (∀ p ∈ scores, v ≤ p.2) →
      (∃ q ∈ scores, q.2 ≠ v) → (k, (0 : ℚ)) ∈ normalize_scores scores) ∧
    ((∀ p ∈ scores, ∀ q ∈ scores, p.2 = q.2) →
      ∀ p ∈ normalize_scores scores, p.2 = 50) := by
  cases scores with
  | nil =>
      refine ⟨?_, ?_, ?_⟩
      · intro k v hv
        simp at hv
      · intro k v hv
        simp at hv
      · intro _ p hp
        simp [normalize_scores] at hp
  | cons q0 rest =>
      obtain ⟨k0, v0⟩ := q0
      refine ⟨?_, ?_, ?_⟩
      · intro k v hv hmax hne
        simp only [normalize_scores]
        refine List.mem_map.mpr ⟨(k, v), hv, ?_⟩
        have hvmx : (((k0, v0) :: rest).map Prod.snd).foldl max v0 = v := by
          apply le_antisymm
          · rcases foldl_max_cases (((k0, v0) :: rest).map Prod.snd) v0 with
              hc | hc
            · rw [hc]
              exact hmax (k0, v0) (List.mem_cons_self _ _)
            · rcases List.mem_map.mp hc with ⟨p, hp, hpv⟩
              rw [← hpv]
              exact hmax p hp
          · exact le_foldl_max_mem (List.mem_map_of_mem Prod.snd hv) v0
        obtain ⟨q, hq, hqne⟩ := hne
        have hmnlt : (((k0, v0) :: rest).map Prod.snd).foldl min v0 < v :=
          lt_of_le_of_lt (foldl_min_le_mem (List.mem_map_of_mem Prod.snd hq) v0)
            (lt_of_le_of_ne (hmax q hq) hqne)
        have hd : (((k0, v0) :: rest).map Prod.snd).foldl max v0 -
            (((k0, v0) :: rest).map Prod.snd).foldl min v0 ≠ 0 := by
          rw [hvmx]
          exact sub_ne_zero.mpr (ne_of_gt hmnlt)
        dsimp only
        rw [if_pos hd, hvmx]
        have hval : 100 * (v - (((k0, v0) :: rest).map Prod.snd).foldl min v0) /
            (v - (((k0, v0) :: rest).map Prod.snd).foldl min v0) = 100 := by
          rw [mul_div_assoc, div_self (sub_ne_zero.mpr (ne_of_gt hmnlt)),
            mul_one]
        rw [hval]
      · intro k v hv hmin hne
        simp only [normalize_scores]
        refine List.mem_map.mpr ⟨(k, v), hv, ?_⟩
        have hvmn : (((k0, v0) :: rest).map Prod.snd).foldl min v0 = v := by
          apply le_antisymm
          · exact foldl_min_le_mem (List.mem_map_of_mem Prod.snd hv) v0
          · rcases foldl_min_cases (((k0, v0) :: rest).map Prod.snd) v0 with
              hc | hc
            · rw [hc]
              exact hmin (k0, v0) (List.mem_cons_self _ _)
            · rcases List.mem_map.mp hc with ⟨p, hp, hpv⟩
              rw [← hpv]
              exact hmin p hp
        obtain ⟨q, hq, hqne⟩ := hne
        have hmxgt : v < (((k0, v0) :: rest).map Prod.snd).foldl max v0 :=
          lt_of_lt_of_le (lt_of_le_of_ne (hmin q hq) (Ne.symm hqne))
            (le_foldl_max_mem (List.mem_map_of_mem Prod.snd hq) v0)
        have hd : (((k0, v0) :: rest).map Prod.snd).foldl max v0 -
            (((k0, v0) :: rest).map Prod.snd).foldl min v0 ≠ 0 := by
          rw [hvmn]
          exact sub_ne_zero.mpr (ne_of_gt hmxgt)
        dsimp only
        rw [if_pos hd, hvmn]
        have hval : 100 * (v - v) /
            ((((k0, v0) :: rest).map Prod.snd).foldl max v0 - v) = 0 := by
          rw [sub_self]
          simp
        rw [hval]
      · intro hall p hp
        have hallv : ∀ p2 ∈ ((k0, v0) :: rest), p2.2 = v0 := fun p2 hp2 =>
          hall p2 hp2 (k0, v0) (List.mem_cons_self _ _)
        have hmx : (((k0, v0) :: rest).map Prod.snd).foldl max v0 = v0 := by
          rcases foldl_max_cases (((k0, v0) :: rest).map Prod.snd) v0 with
            hc | hc
          · exact hc
          · rcases List.mem_map.mp hc with ⟨p2, hp2, hpv⟩
            rw [← hpv]
            exact hallv p2 hp2
        have hmn : (((k0, v0) :: rest).map Prod.snd).foldl min v0 = v0 := by
          rcases foldl_min_cases (((k0, v0) :: rest).map Prod.snd) v0 with
            hc | hc
          · exact hc
          · rcases List.mem_map.mp hc with ⟨p2, hp2, hpv⟩
            rw [← hpv]
            exact hallv p2 hp2
        have hd : (((k0, v0) :: rest).map Prod.snd).foldl max v0 -
            (((k0, v0) :: rest).map Prod.snd).foldl min v0 = 0 := by
          rw [hmx, hmn, sub_self]
        simp only [normalize_scores] at hp
        rcases List.mem_map.mp hp with ⟨q, hq, hqp⟩
        rw [← hqp]
        dsimp only
        rw [if_neg (fun hcon => hcon hd)]

end Codenames

namespace Codenames

/-- C7: a raised exception in the relation service yields the empty
mapping from the Relation Client, and the per-word Aggregator computes
exactly what it would have computed had that one call succeeded with no
data — the results derived from the other calls survive. -/
theorem relation_failure_graceful (env env2 : Env) (r : String) (w : Str)
    (hfail : env.dm r w = none)
    (hok : env2.dm r w = some [])
    (hagree : ∀ r2 w2, ¬(r2 = r ∧ w2 = w) → env2.dm r2 w2 = env.dm r2 w2)
    (hwiki : ∀ w2, env2.wiki w2 = env.wiki w2) :
    query_datamuse env r w = [] ∧
    combine_data_sources env w = combine_data_sources env2 w := by
  have hq : ∀ r2, query_datamuse env2 r2 w = query_datamuse env r2 w := by
    intro r2
    by_cases hr : r2 = r
    · subst hr
      unfold query_datamuse
      rw [hfail, hok]
      rfl
    · unfold query_datamuse
      rw [hagree r2 w (fun hc => hr hc.1)]
  constructor
  · unfold query_datamuse
    rw [hfail]
  · unfold combine_data_sources combineSources get_wikipedia_links
      get_adjectives get_nouns get_triggers get_contextual
    simp only [hq, hwiki]

theorem entryOf_word {it : DMItem} {e : Str × DMData}
    (h : entryOf it = some e) : e.1 = it.word := by
  have h0 : (match parseFloat (lastColonSeg ((it.tags.getD []).headD
      (str "0"))) with
    | none => (none : Option (Str × DMData))
    | some f => some (it.word,
        ⟨it.score, f, lastColonSeg ((it.tags.getD []).getLastD [])⟩)) =
      some e := h
  cases hp : parseFloat (lastColonSeg ((it.tags.getD []).headD (str "0"))) with
  | none =>
      rw [hp] at h0
      have h2 : (none : Option (Str × DMData)) = some e := h0
      cases h2
  | some f =>
      rw [hp] at h0
      have h2 : some (it.word,
          (⟨it.score, f, lastColonSeg ((it.tags.getD []).getLastD [])⟩ :
            DMData)) = some e := h0
      rw [← Option.some.inj h2]

theorem entriesOf_go_words : ∀ {l : List DMItem} {es : List (Str × DMData)},
    entriesOf.go l = some es → es.map Prod.fst = l.map DMItem.word := by
  intro l
  induction l with
  | nil =>
      intro es h
      have : es = [] := (Option.some.inj h).symm
      simp [this]
  | cons it rest ih =>
      intro es h
      unfold entriesOf.go at h
      revert h
      cases he : entryOf it with
      | none =>
          intro h
          cases h
      | some e =>
          cases hg : entriesOf.go rest with
          | none =>
              intro h
              cases h
          | some es2 =>
              intro h
              have hes : es = e :: es2 := (Option.some.inj h).symm
              rw [hes]
              simp only [List.map_cons]
              rw [ih hg, entryOf_word he]

theorem mem_dkeys_foldl_dinsert {β : Type} (es : List (Str × β)) :
    ∀ (m : List (Str × β)) (t : Str),
    t ∈ dkeys (es.foldl (fun m e => dinsert m e.1 e.2) m) ↔
      t ∈ dkeys m ∨ t ∈ es.map Prod.fst := by
  induction es with
  | nil =>
      intro m t
      simp
  | cons e rest ih =>
      intro m t
      simp only [List.foldl_cons, List.map_cons, List.mem_cons]
      rw [ih, mem_dkeys_dinsert]
      tauto

theorem dlookup_dictOf_isSome (es : List (Str × DMData)) (t : Str) :
    (dlookup (dictOf es) t).isSome ↔ t ∈ es.map Prod.fst := by
  rw [dlookup_isSome_iff]
  unfold dictOf
  rw [mem_dkeys_foldl_dinsert es [] t]
  constructor
  · rintro (h | h)
    · simp [dkeys] at h
    · exact h
  · exact Or.inr

/-- C8 (amended): entries whose `tags` metadata is missing or shorter
than two entries are excluded one by one while the rest of the batch is
kept — when the whole batch parses, the resulting mapping's keys are
exactly the tag-qualifying items' words.  Nothing ever crashes.  But an
entry whose frequency tag fails to parse as a number does not merely
drop that entry: the exception empties the entire batch. -/
theorem tag_filter_and_batch_failure (env : Env) (rel : String) (w : Str)
    (items : List DMItem) (hresp : env.dm rel w = some items) :
    (∀ es, entriesOf items = some es →
      query_datamuse env rel w = dictOf es ∧
      (∀ t : Str, (dlookup (query_datamuse env rel w) t).isSome ↔
        ∃ it ∈ items, tagsOk it = true ∧ it.word = t)) ∧
    (entriesOf items = none → query_datamuse env rel w = []) := by
  constructor
  · intro es hes
    have hq : query_datamuse env rel w = dictOf es := by
      unfold query_datamuse
      rw [hresp]
      show (match entriesOf items with
        | none => []
        | some es => dictOf es) = dictOf es
      rw [hes]
    refine ⟨hq, fun t => ?_⟩
    rw [hq, dlookup_dictOf_isSome]
    unfold entriesOf at hes
    rw [entriesOf_go_words hes]
    constructor
    · intro ht
      rcases List.mem_map.mp ht with ⟨it, hit, hw2⟩
      rcases List.mem_filter.mp hit with ⟨hit2, htags⟩
      exact ⟨it, hit2, htags, hw2⟩
    · rintro ⟨it, hit, htags, hw2⟩
      exact List.mem_map.mpr ⟨it, List.mem_filter.mpr ⟨hit, htags⟩, hw2⟩
  · intro hnone
    unfold query_datamuse
    rw [hresp]
    show (match entriesOf items with
      | none => []
      | some es => dictOf es) = []
    rw [hnone]

end Codenames

namespace Codenames

unseal Rat.add Rat.mul Rat.sub Rat.inv Rat.ofScientific in
/-- In the world `envA`, the full pipeline on target words `fish` and
`bird` with avoid word `notebook` emits the hint `note`. -/
theorem envA_hint_mem :
    (⟨str "note", 2, 120, [str "fish", str "bird"]⟩ : Hint) ∈
      get_sorted_hints (find_common_associations envA
        [str "fish", str "bird"] [str "notebook"]) := by
  unfold get_sorted_hints
  refine List.mem_map.mpr ⟨(str "note",
    ⟨2, 120, [str "fish", str "bird"],
     [(str "fish", 10), (str "bird", 10)]⟩), ?_, rfl⟩
  rw [List.mem_mergeSort]
  decide

unseal Rat.add Rat.mul Rat.sub Rat.inv Rat.ofScientific in
/-- In the world `envA`, `find_common_associations` on `fish`, `bird`
and avoid word `notebook` returns the record for `note`. -/
theorem envA_record_mem :
    (str "note", (⟨2, 120, [str "fish", str "bird"],
        [(str "fish", 10), (str "bird", 10)]⟩ : Record)) ∈
      find_common_associations envA [str "fish", str "bird"]
        [str "notebook"] := by
  decide

unseal Rat.add Rat.mul Rat.sub Rat.inv Rat.ofScientific in
/-- C1 counterexample: with avoid word `notebook`, the term `note` — a
proper case-insensitive substring of that avoid word — appears in the
final hint sequence: avoid words block only exact equality. -/
theorem C1_counterexample :
    (⟨str "note", 2, 120, [str "fish", str "bird"]⟩ : Hint) ∈
      get_sorted_hints (find_common_associations envA
        [str "fish", str "bird"] [str "notebook"]) ∧
    isSubChars (lower (str "note")) (lower (str "notebook")) = true ∧
    str "note" ≠ str "notebook" := by
  exact ⟨envA_hint_mem, by decide, by decide⟩

/-- C1 witness: the amended theorem applied in the world `envA`. -/
theorem C1_witness :
    isSubChars (lower (str "fish")) (lower (str "note")) = false ∧
    isSubChars (lower (str "note")) (lower (str "fish")) = false ∧
    lower (str "note") ≠ lower (str "notebook") := by
  have h := hint_overlap_freedom envA [str "fish", str "bird"]
    [str "notebook"] _ envA_hint_mem
  exact ⟨(h.1 (str "fish") (by decide)).1, (h.1 (str "fish") (by decide)).2,
    h.2 (str "notebook") (by decide)⟩

unseal Rat.add Rat.mul Rat.sub Rat.inv Rat.ofScientific in
/-- C2 counterexample: in the world `envC2` the aggregator keeps the
raw score 200 for `atom`, while the spec's per-batch normalization
would map the only score of the batch to 50: the aggregator of the
code does not rescale batches to 0–100. -/
theorem C2_counterexample :
    combine_data_sources envC2 (str "tree") = [(str "atom", 200)] ∧
    combine_data_sources_specNormalized envC2 (str "tree") =
      [(str "atom", 50)] ∧
    combine_data_sources envC2 (str "tree") ≠
      combine_data_sources_specNormalized envC2 (str "tree") := by
  refine ⟨by decide, by decide, by decide⟩

/-- C2 witness: the amended normalization theorem applied to the
concrete batch `a ↦ 5, b ↦ 1`. -/
theorem C2_witness :
    (str "a", (100 : ℚ)) ∈ normalize_scores [(str "a", 5), (str "b", 1)] ∧
    (str "b", (0 : ℚ)) ∈ normalize_scores [(str "a", 5), (str "b", 1)] := by
  exact ⟨(normalize_scores_spec [(str "a", 5), (str "b", 1)]).1
      (str "a") 5 (by decide) (by decide) (by decide),
    (normalize_scores_spec [(str "a", 5), (str "b", 1)]).2.1
      (str "b") 1 (by decide) (by decide) (by decide)⟩

unseal Rat.add Rat.mul Rat.sub Rat.inv Rat.ofScientific in
/-- C4 counterexample: with the duplicated target list
`[fish, fish, bird]` the record for `note` carries composite score
10 + 10 + 10 + 2·50 = 130, while its breakdown sums to 10 + 10, so the
claimed identity would give 120: a duplicated target word enters the
total once per occurrence but the breakdown only once. -/
theorem C4_counterexample :
    find_common_associations envA [str "fish", str "fish", str "bird"] [] =
      [(str "note", ⟨2, 130, [str "fish", str "bird"],
        [(str "fish", 10), (str "bird", 10)]⟩)] ∧
    (130 : ℚ) ≠
      ([(str "fish", (10 : ℚ)), (str "bird", 10)].map Prod.snd).sum +
        (2 : ℚ) * 50 := by
  refine ⟨by decide, by decide⟩

/-- C4 witness: the amended theorem applied in the world `envA` with
the duplicate-free target list `[fish, bird]`. -/
theorem C4_witness :
    ([str "fish", str "bird"] : List Str).Nodup ∧
    (⟨2, 120, [str "fish", str "bird"],
        [(str "fish", 10), (str "bird", 10)]⟩ : Record).score =
      (([(str "fish", (10 : ℚ)), (str "bird", 10)]).map Prod.snd).sum +
        ((2 : ℕ) : ℚ) * 50 := by
  refine ⟨by decide, score_decomposition_nodup envA [str "fish", str "bird"]
    [str "notebook"] (by decide) (str "note") _ envA_record_mem⟩

/-- C5 witness: the connectivity-count theorem applied in the world
`envA`: the hint `note` has count 2, which is both the number of
distinct producing target words and the size of its connected set. -/
theorem C5_witness :
    (2 : ℕ) = (producingTargets envA [str "fish", str "bird"]
      (str "note")).toFinset.card ∧
    ([str "fish", str "bird"] : List Str).Nodup ∧
    (2 : ℕ) = ([str "fish", str "bird"] : List Str).length := by
  exact connectivity_count_exact envA [str "fish", str "bird"]
    [str "notebook"] _ envA_hint_mem

unseal Rat.add Rat.mul Rat.sub Rat.inv Rat.ofScientific in
/-- C6 counterexample: the multi-word Wikipedia link `stone fruit`
appears as a key of the aggregation for `apple` — a space is not a
punctuation character, so multi-word terms are not discarded. -/
theorem C6_counterexample :
    (str "stone fruit") ∈ dkeys (combine_data_sources envB (str "apple")) ∧
    ' ' ∈ (str "stone fruit") := by
  refine ⟨by decide, by decide⟩

unseal Rat.add Rat.mul Rat.sub Rat.inv Rat.ofScientific in
/-- C6 witness: the amended theorem applied to the key `stone fruit`
of the aggregation for `apple` in the world `envB`. -/
theorem C6_witness :
    is_valid_term (str "stone fruit") [str "apple"] = true ∧
    (str "stone fruit").any isPunct = false := by
  exact aggregation_keys_punctuation_free envB (str "apple")
    (str "stone fruit") (by decide)

unseal Rat.add Rat.mul Rat.sub Rat.inv Rat.ofScientific in
/-- C7 witness: in the worlds `envC7a` (trigger call raises) and
`envC7b` (trigger call succeeds empty), the failed call yields the
empty mapping and the aggregations coincide; the surviving contextual
term `scale` is still aggregated. -/
theorem C7_witness :
    (query_datamuse envC7a "rel_trg" (str "fish") = [] ∧
      combine_data_sources envC7a (str "fish") =
        combine_data_sources envC7b (str "fish")) ∧
    dkeys (combine_data_sources envC7a (str "fish")) = [str "scale"] := by
  refine ⟨relation_failure_graceful envC7a envC7b "rel_trg" (str "fish")
    (by decide) (by decide) ?_ (fun _ => rfl), by decide⟩
  intro r2 w2 hne
  show (if r2 = "rel_trg" ∧ w2 = str "fish" then some [] else _) =
    (if r2 = "rel_trg" ∧ w2 = str "fish" then none else _)
  rw [if_neg hne, if_neg hne]

unseal Rat.add Rat.mul Rat.sub Rat.inv Rat.ofScientific in
/-- C8 counterexample: the batch for `cat` contains the well-formed
item `alpha` (whose entry parses on its own) next to an item whose
frequency tag `f:xyz` does not parse; the whole batch is returned as
the empty mapping, so the well-formed entry is not kept. -/
theorem C8_counterexample :
    query_datamuse envC8 "rel_trg" (str "cat") = [] ∧
    entryOf ⟨str "alpha", 10, some [str "f:2.5", str "n"]⟩ =
      some (str "alpha", ⟨10, 2.5, str "n"⟩) := by
  refine ⟨by decide, by decide⟩

unseal Rat.add Rat.mul Rat.sub Rat.inv Rat.ofScientific in
/-- C8 witness: the amended theorem applied to `envC8b` (an item with
no tags is excluded individually, `alpha` is kept) and to `envC8`
(a malformed frequency tag empties the whole batch). -/
theorem C8_witness :
    query_datamuse envC8b "rel_trg" (str "cat") =
      dictOf [(str "alpha", ⟨10, 2.5, str "n"⟩)] ∧
    query_datamuse envC8 "rel_trg" (str "cat") = [] := by
  refine ⟨((tag_filter_and_batch_failure envC8b "rel_trg" (str "cat")
      [⟨str "alpha", 10, some [str "f:2.5", str "n"]⟩,
       ⟨str "beta", 7, none⟩] rfl).1
      [(str "alpha", ⟨10, 2.5, str "n"⟩)] (by decide)).1,
    (tag_filter_and_batch_failure envC8 "rel_trg" (str "cat")
      [⟨str "alpha", 10, some [str "f:2.5", str "n"]⟩,
       ⟨str "beta", 5, some [str "f:xyz", str "n"]⟩] rfl).2 (by decide)⟩

unseal Rat.add Rat.mul Rat.sub Rat.inv Rat.ofScientific in
/-- C10 witness: the wiki-bonus theorem applied in the world `envB`:
the valid link title `stone fruit` of `apple` is looked up with its
relation total plus the flat 80 points. -/
theorem C10_witness :
    is_valid_term (str "stone fruit") [str "apple"] = true ∧
    (str "stone fruit") ∈ envB.wiki (str "apple") ∧
    dlookup (combine_data_sources envB (str "apple")) (str "stone fruit") =
      some (dlookupD (combineSources envB (str "apple"))
        (str "stone fruit") 0 + 80) := by
  exact ⟨by decide, by decide, wiki_bonus_additive envB (str "apple")
    (str "stone fruit") (by decide) (by decide)⟩

end Codenames
